import Mathlib

/-!
Verification of the partition/layer namespace core of the Field3D file
library (`src/export/Field3DFile.h`).

The header declares the naming algorithm (`intPartitionName`,
`makeIntPartitionName`, `removeUniqueId`) and the `File::Partition`
layer-list operations without bodies; those are modelled from the spec
(section 4.1 and 4.3).  The inline template bodies of
`Field3DOutputFile::writeLayer`, `Field3DInputFile::readLayers` and
`Field3DInputFile::readLayer` are embedded directly from the source.

Spatial mappings are abstracted as a type `M` with decidable value
equality, matching the spec's requirement that mappings support value
equality comparison.
-/

namespace Field3D

/-- Decimal digit characters for a natural number, most significant first.
The first argument is recursion fuel; `n` digits are produced correctly
whenever `fuel ≥ n`. -/
def natDigitsAux : Nat → Nat → List Char
  | 0, _ => []
  | fuel + 1, n =>
    if n = 0 then []
    else natDigitsAux fuel (n / 10) ++ [Char.ofNat (n % 10 + 48)]

/-- Decimal rendering of a natural number, used for the `.N` suffix of
internal partition names. -/
def natStr (n : Nat) : String :=
  if n = 0 then "0" else String.mk (natDigitsAux n n)

/-- Big-endian interpretation of a digit string. -/
def charsToNat (cs : List Char) : Nat :=
  cs.foldl (fun acc c => acc * 10 + (c.toNat - 48)) 0

theorem charsToNat_append_singleton (cs : List Char) (c : Char) :
    charsToNat (cs ++ [c]) = charsToNat cs * 10 + (c.toNat - 48) := by
  simp [charsToNat, List.foldl_append]

theorem digitChar_toNat {k : Nat} (hk : k < 10) :
    (Char.ofNat (k + 48)).toNat = k + 48 := by
  interval_cases k <;> decide

theorem digitChar_isDigit {k : Nat} (hk : k < 10) :
    (Char.ofNat (k + 48)).isDigit = true := by
  interval_cases k <;> decide

theorem charsToNat_natDigitsAux {fuel n : Nat} (h : n ≤ fuel) :
    charsToNat (natDigitsAux fuel n) = n := by
  induction fuel generalizing n with
  | zero =>
    have hn : n = 0 := Nat.le_zero.mp h
    subst hn; simp [natDigitsAux, charsToNat]
  | succ fuel ih =>
    by_cases hn : n = 0
    · subst hn; simp [natDigitsAux, charsToNat]
    · have hdiv : n / 10 ≤ fuel := by
        have h1 : n / 10 < n := Nat.div_lt_self (Nat.pos_of_ne_zero hn) (by omega)
        omega
      rw [natDigitsAux, if_neg hn, charsToNat_append_singleton, ih hdiv,
        digitChar_toNat (Nat.mod_lt n (by omega))]
      omega

theorem natDigitsAux_all_digit {fuel n : Nat} :
    ∀ c ∈ natDigitsAux fuel n, c.isDigit = true := by
  induction fuel generalizing n with
  | zero => intro c hc; simp [natDigitsAux] at hc
  | succ fuel ih =>
    intro c hc
    by_cases hn : n = 0
    · subst hn; simp [natDigitsAux] at hc
    · rw [natDigitsAux, if_neg hn] at hc
      rcases List.mem_append.mp hc with h | h
      · exact ih _ h
      · rcases List.mem_singleton.mp h with rfl
        exact digitChar_isDigit (Nat.mod_lt n (by omega))

theorem natDigitsAux_ne_nil {fuel n : Nat} (hf : 0 < fuel) (hn : n ≠ 0) :
    natDigitsAux fuel n ≠ [] := by
  cases fuel with
  | zero => omega
  | succ fuel =>
    rw [natDigitsAux, if_neg hn]
    simp

theorem natStr_data_all_digit (n : Nat) :
    ∀ c ∈ (natStr n).data, c.isDigit = true := by
  intro c hc
  by_cases hn : n = 0
  · subst hn; simp [natStr] at hc; subst hc; decide
  · rw [natStr, if_neg hn] at hc
    exact natDigitsAux_all_digit c hc

theorem natStr_data_ne_nil (n : Nat) : (natStr n).data ≠ [] := by
  by_cases hn : n = 0
  · subst hn; simp [natStr]
  · rw [natStr, if_neg hn]
    exact natDigitsAux_ne_nil (Nat.pos_of_ne_zero hn) hn

theorem natStr_injective : Function.Injective natStr := by
  intro m n h
  by_cases hm : m = 0 <;> by_cases hn : n = 0
  · omega
  · exfalso
    rw [natStr, if_pos hm, natStr, if_neg hn] at h
    have hd : (natDigitsAux n n) = ['0'] := by
      have := congrArg String.data h
      simpa using this.symm
    have h2 := charsToNat_natDigitsAux (Nat.le_refl n)
    rw [hd] at h2
    simp [charsToNat] at h2
    omega
  · exfalso
    rw [natStr, if_neg hm, natStr, if_pos hn] at h
    have hd : (natDigitsAux m m) = ['0'] := by
      have := congrArg String.data h
      simpa using this
    have h2 := charsToNat_natDigitsAux (Nat.le_refl m)
    rw [hd] at h2
    simp [charsToNat] at h2
    omega
  · rw [natStr, if_neg hm, natStr, if_neg hn] at h
    have hd : natDigitsAux m m = natDigitsAux n n := by
      have := congrArg String.data h
      simpa using this
    have h2 := charsToNat_natDigitsAux (Nat.le_refl m)
    rw [hd, charsToNat_natDigitsAux (Nat.le_refl n)] at h2
    exact h2.symm

/-- Modelled from the spec: the body of `Field3DFileBase::removeUniqueId`
is not present under src (only its declaration, `Field3DFile.h` lines
275-277).  Per the spec's naming invariant, the external name is obtained
by stripping the trailing `.N` suffix; when the name carries no such
numeric suffix it is returned unchanged. -/
def removeUniqueId (s : String) : String :=
  let rev := s.data.reverse
  let ds := rev.takeWhile Char.isDigit
  if ds.isEmpty then s
  else
    match rev.drop ds.length with
    | '.' :: rest => String.mk rest.reverse
    | _ => s

/-- Modelled from the spec: the body of
`Field3DFileBase::makeIntPartitionName` is not present under src (header
doc, lines 343-346: "Effectively just tacks on .X to the name, where X is
the number"). -/
def makeIntPartitionName (partitionsName : String) (i : Nat) : String :=
  partitionsName ++ "." ++ natStr i

theorem takeWhile_append_of_all {p : Char → Bool} {xs ys : List Char}
    (h : ∀ c ∈ xs, p c = true) :
    (xs ++ ys).takeWhile p = xs ++ ys.takeWhile p := by
  induction xs with
  | nil => simp
  | cons x xs ih =>
    have hx : p x = true := h x (List.mem_cons_self x xs)
    simp only [List.cons_append, List.takeWhile_cons, hx, if_true]
    rw [ih (fun c hc => h c (List.mem_cons_of_mem x hc))]

theorem string_mk_data (s : String) : String.mk s.data = s := by
  cases s
  rfl

/-- Suffix stripping undoes suffix assignment on any minted name. -/
theorem removeUniqueId_makeIntPartitionName (E : String) (n : Nat) :
    removeUniqueId (makeIntPartitionName E n) = E := by
  have hdata : (makeIntPartitionName E n).data
      = E.data ++ '.' :: (natStr n).data := by
    simp [makeIntPartitionName, String.data_append]
  have hrev : (makeIntPartitionName E n).data.reverse
      = (natStr n).data.reverse ++ '.' :: E.data.reverse := by
    rw [hdata]
    simp
  have hall : ∀ c ∈ (natStr n).data.reverse, Char.isDigit c = true := by
    intro c hc
    exact natStr_data_all_digit n c (List.mem_reverse.mp hc)
  have htake : ((makeIntPartitionName E n).data.reverse).takeWhile Char.isDigit
      = (natStr n).data.reverse := by
    rw [hrev, takeWhile_append_of_all hall]
    simp [List.takeWhile_cons]
  have hne : (natStr n).data.reverse ≠ [] := by
    intro h
    exact natStr_data_ne_nil n (by simpa using congrArg List.reverse h)
  have hdrop : (makeIntPartitionName E n).data.reverse.drop
      ((natStr n).data.reverse).length = '.' :: E.data.reverse := by
    rw [hrev, List.drop_left]
  rw [removeUniqueId]
  simp only [htake, hdrop]
  rw [if_neg (by simpa [List.isEmpty_iff] using hne)]
  simp [string_mk_data]

/-- `File::Layer` (`Field3DFile.h` lines 89-97): a layer name together
with the name of its parent partition. -/
structure Layer where
  name : String
  parent : String
deriving DecidableEq

/-- `File::Partition` (`Field3DFile.h` lines 114-188): a partition name,
its mapping, and the scalar/vector layer lists.  The mapping type `M`
abstracts `FieldMapping::Ptr` compared by value. -/
structure Partition (M : Type) where
  name : String
  mapping : M
  m_scalarLayers : List Layer := []
  m_vectorLayers : List Layer := []
deriving DecidableEq

variable {M : Type} [DecidableEq M]

/-- Modelled from the spec: `Partition::addScalarLayer` has no body under
src; section 4.3 specifies append-only addition. -/
def Partition.addScalarLayer (p : Partition M) (l : Layer) : Partition M :=
  { p with m_scalarLayers := p.m_scalarLayers ++ [l] }

/-- Modelled from the spec: `Partition::addVectorLayer` has no body under
src; section 4.3 specifies append-only addition. -/
def Partition.addVectorLayer (p : Partition M) (l : Layer) : Partition M :=
  { p with m_vectorLayers := p.m_vectorLayers ++ [l] }

/-- Modelled from the spec: `Partition::scalarLayer` has no body under
src; section 4.3 specifies returning the first matching Layer Record in
insertion order. -/
def Partition.scalarLayer (p : Partition M) (nm : String) : Option Layer :=
  p.m_scalarLayers.find? (fun l => decide (l.name = nm))

/-- Modelled from the spec: `Partition::vectorLayer` has no body under
src; section 4.3 specifies returning the first matching Layer Record in
insertion order. -/
def Partition.vectorLayer (p : Partition M) (nm : String) : Option Layer :=
  p.m_vectorLayers.find? (fun l => decide (l.name = nm))

/-- Modelled from the spec: name-listing accessor preserving insertion
order (section 4.3). -/
def Partition.getScalarLayerNames (p : Partition M) : List String :=
  p.m_scalarLayers.map Layer.name

/-- Modelled from the spec: name-listing accessor preserving insertion
order (section 4.3). -/
def Partition.getVectorLayerNames (p : Partition M) : List String :=
  p.m_vectorLayers.map Layer.name

/-- `Field3DFileBase` partition bookkeeping (`Field3DFile.h` lines
350-367): the ordered partition list and the per-external-name counter
used to mint unique suffixes. -/
structure Field3DFileBase (M : Type) where
  m_partitions : List (Partition M)
  m_partitionCount : String → Nat

/-- A freshly constructed file: no partitions, all counters zero. -/
def emptyFile (M : Type) : Field3DFileBase M :=
  ⟨[], fun _ => 0⟩

/-- Modelled from the spec: scan the partitions in creation order for the
first one derived from `E` whose mapping equals the candidate (section
4.1's resolve-or-create match phase). -/
def findMatch (E : String) (m : M) : List (Partition M) → Option String
  | [] => none
  | p :: ps =>
    if removeUniqueId p.name = E ∧ p.mapping = m then some p.name
    else findMatch E m ps

/-- Modelled from the spec: the body of
`Field3DFileBase::intPartitionName` is not present under src (only its
declaration, `Field3DFile.h` lines 271-273).  Section 4.1: return the
first existing internal partition derived from `E` whose mapping equals
the candidate; otherwise mint the next unused suffix, register a new
Partition, and bump the counter.  The layer-name argument is accepted but
not used by the algorithm. -/
def intPartitionName (E L : String) (field : M) (f : Field3DFileBase M) :
    String × Field3DFileBase M :=
  match findMatch E field f.m_partitions with
  | some nm => (nm, f)
  | none =>
    let idx := f.m_partitionCount E
    let nm := makeIntPartitionName E idx
    (nm,
     { m_partitions := f.m_partitions ++ [{ name := nm, mapping := field }],
       m_partitionCount :=
         fun s => if s = E then idx + 1 else f.m_partitionCount s })

/-- Run a sequence of resolve-or-create calls with a fixed external name
and layer name, collecting the returned internal names in call order. -/
def resolveAll (E L : String) :
    List M → Field3DFileBase M → Field3DFileBase M × List String
  | [], f => (f, [])
  | m :: ms, f =>
    let r := intPartitionName E L m f
    let rest := resolveAll E L ms r.2
    (rest.1, r.1 :: rest.2)

/-- Append a mapping to a list of distinct mappings unless already
present. -/
def insertD (ds : List M) (m : M) : List M :=
  if m ∈ ds then ds else ds ++ [m]

/-- Fold `insertD` over a list of mappings. -/
def extendD : List M → List M → List M
  | ds, [] => ds
  | ds, m :: ms => extendD (insertD ds m) ms

/-- The distinct mappings of a call sequence in first-occurrence order. -/
def dedupFirst (ms : List M) : List M :=
  extendD [] ms

/-- The canonical partition list for external name `E` over distinct
mappings `ds`, with suffixes starting at `k`. -/
def canonParts (E : String) : Nat → List M → List (Partition M)
  | _, [] => []
  | k, d :: ds =>
    { name := makeIntPartitionName E k, mapping := d } :: canonParts E (k + 1) ds

/-- The canonical registry state after a sequence of resolve-or-create
calls whose distinct mappings (in first-occurrence order) are `ds`. -/
def canon (E : String) (ds : List M) : Field3DFileBase M :=
  ⟨canonParts E 0 ds, fun s => if s = E then ds.length else 0⟩

/-- The internal names returned by a call sequence `ms` starting from the
canonical state over `ds`. -/
def namesOf (E : String) : List M → List M → List String
  | _, [] => []
  | ds, m :: ms =>
    makeIntPartitionName E (if m ∈ ds then ds.indexOf m else ds.length)
      :: namesOf E (insertD ds m) ms

theorem makeIntPartitionName_inj {E : String} {a b : Nat}
    (h : makeIntPartitionName E a = makeIntPartitionName E b) : a = b := by
  have hd := congrArg String.data h
  simp only [makeIntPartitionName, String.data_append] at hd
  have h2 : (natStr a).data = (natStr b).data :=
    List.append_cancel_left hd
  have h3 : natStr a = natStr b := by
    rw [← string_mk_data (natStr a), ← string_mk_data (natStr b), h2]
  exact natStr_injective h3

theorem findMatch_canonParts (E : String) (m : M) (ds : List M) (k : Nat) :
    findMatch E m (canonParts E k ds)
      = if m ∈ ds then some (makeIntPartitionName E (k + ds.indexOf m))
        else none := by
  induction ds generalizing k with
  | nil => simp [canonParts, findMatch]
  | cons d ds ih =>
    by_cases hd : d = m
    · subst hd
      simp [canonParts, findMatch, removeUniqueId_makeIntPartitionName]
    · rw [canonParts, findMatch,
        if_neg (fun hc => hd hc.2), ih]
      by_cases hm : m ∈ ds
      · rw [if_pos hm, if_pos (List.mem_cons_of_mem d hm),
          List.indexOf_cons_ne _ (by simpa using hd)]
        have harith : k + 1 + ds.indexOf m = k + (ds.indexOf m + 1) := by omega
        rw [harith]
      · have hnc : ¬ m ∈ d :: ds := by
          intro hAbs
          rcases List.mem_cons.mp hAbs with h | h
          · exact hd h.symm
          · exact hm h
        rw [if_neg hm, if_neg hnc]

theorem canonParts_append (E : String) (ds : List M) (m : M) (k : Nat) :
    canonParts E k (ds ++ [m])
      = canonParts E k ds
        ++ [{ name := makeIntPartitionName E (k + ds.length), mapping := m }] := by
  induction ds generalizing k with
  | nil => simp [canonParts]
  | cons d ds ih =>
    simp only [List.cons_append, canonParts, List.length_cons, List.append_eq]
    rw [ih]
    have harith : k + 1 + ds.length = k + (ds.length + 1) := by omega
    rw [harith]

/-- One resolve-or-create step from a canonical state: a matching mapping
returns the existing internal name and leaves the state untouched; a new
mapping mints the next suffix and appends a fresh Partition. -/
theorem intPartitionName_canon (E L : String) (m : M) (ds : List M) :
    intPartitionName E L m (canon E ds)
      = (makeIntPartitionName E (if m ∈ ds then ds.indexOf m else ds.length),
         canon E (insertD ds m)) := by
  by_cases hm : m ∈ ds
  · rw [intPartitionName]
    have hfind := findMatch_canonParts E m ds 0
    rw [if_pos hm] at hfind
    simp only [canon] at hfind ⊢
    rw [hfind]
    simp [insertD, hm]
  · rw [intPartitionName]
    have hfind := findMatch_canonParts E m ds 0
    rw [if_neg hm] at hfind
    simp only [canon] at hfind ⊢
    rw [hfind]
    simp only [if_neg hm, insertD, if_pos rfl, ite_true]
    rw [Prod.mk.injEq]
    refine ⟨by simp, ?_⟩
    rw [Field3DFileBase.mk.injEq]
    constructor
    · rw [canonParts_append]
      simp
    · funext s
      by_cases hs : s = E <;> simp [hs]

/-- Characterization of a full call sequence from a canonical state. -/
theorem resolveAll_canon (E L : String) (ms ds : List M) :
    resolveAll E L ms (canon E ds)
      = (canon E (extendD ds ms), namesOf E ds ms) := by
  induction ms generalizing ds with
  | nil => simp [resolveAll, extendD, namesOf]
  | cons m ms ih =>
    rw [resolveAll]
    simp only [intPartitionName_canon, ih]
    rw [extendD, namesOf]

theorem canon_nil (E : String) : canon E ([] : List M) = emptyFile M := by
  rw [canon, emptyFile, Field3DFileBase.mk.injEq]
  exact ⟨rfl, by funext s; simp [canonParts]⟩

theorem mem_insertD_self (ds : List M) (m : M) : m ∈ insertD ds m := by
  rw [insertD]
  by_cases hm : m ∈ ds
  · rwa [if_pos hm]
  · rw [if_neg hm]
    simp

theorem mem_insertD_of_mem {w : M} {ds : List M} (m : M) (h : w ∈ ds) :
    w ∈ insertD ds m := by
  rw [insertD]
  by_cases hm : m ∈ ds
  · rwa [if_pos hm]
  · rw [if_neg hm]
    exact List.mem_append_left _ h

theorem extendD_eq_append (ms ds : List M) :
    ∃ ts, extendD ds ms = ds ++ ts := by
  induction ms generalizing ds with
  | nil => exact ⟨[], by simp [extendD]⟩
  | cons m ms ih =>
    rcases ih (insertD ds m) with ⟨ts, hts⟩
    rw [extendD, hts, insertD]
    by_cases hm : m ∈ ds
    · exact ⟨ts, by rw [if_pos hm]⟩
    · exact ⟨[m] ++ ts, by rw [if_neg hm, List.append_assoc]⟩

theorem mem_extendD_of_mem {w : M} {ds : List M} (ms : List M) (h : w ∈ ds) :
    w ∈ extendD ds ms := by
  rcases extendD_eq_append ms ds with ⟨ts, hts⟩
  rw [hts]
  exact List.mem_append_left _ h

theorem mem_extendD_of_mem_calls {x : M} {ms : List M} (ds : List M)
    (h : x ∈ ms) : x ∈ extendD ds ms := by
  induction ms generalizing ds with
  | nil => simp at h
  | cons m ms ih =>
    rcases List.mem_cons.mp h with rfl | h2
    · exact mem_extendD_of_mem ms (mem_insertD_self ds x)
    · exact ih _ h2

theorem extendD_append (ds xs ys : List M) :
    extendD ds (xs ++ ys) = extendD (extendD ds xs) ys := by
  induction xs generalizing ds with
  | nil => rw [List.nil_append, extendD]
  | cons x xs ih => rw [List.cons_append, extendD, extendD, ih]

theorem indexOf_extendD {w : M} {ds : List M} (ms : List M) (h : w ∈ ds) :
    (extendD ds ms).indexOf w = ds.indexOf w := by
  rcases extendD_eq_append ms ds with ⟨ts, hts⟩
  rw [hts, List.indexOf_append_of_mem h]

theorem indexOf_insertD_self (ds : List M) (m : M) :
    (insertD ds m).indexOf m
      = if m ∈ ds then ds.indexOf m else ds.length := by
  rw [insertD]
  by_cases hm : m ∈ ds
  · rw [if_pos hm, if_pos hm]
  · rw [if_neg hm, if_neg hm, List.indexOf_append_of_not_mem hm]
    simp

theorem namesOf_length (E : String) (ds ms : List M) :
    (namesOf E ds ms).length = ms.length := by
  induction ms generalizing ds with
  | nil => rfl
  | cons m ms ih => simp [namesOf, ih]

/-- The i-th internal name returned: its suffix is the index of the i-th
mapping among the distinct mappings seen so far. -/
theorem namesOf_getD (E : String) (ms : List M) (i : Nat) :
    ∀ ds, ∀ hi : i < ms.length,
    (namesOf E ds ms).getD i ""
      = makeIntPartitionName E
          ((extendD ds (ms.take (i + 1))).indexOf (ms.get ⟨i, hi⟩)) := by
  induction ms generalizing i with
  | nil => intro ds hi; simp at hi
  | cons m ms ih =>
    intro ds hi
    cases i with
    | zero =>
      show makeIntPartitionName E (if m ∈ ds then ds.indexOf m else ds.length)
          = makeIntPartitionName E ((extendD ds ((m :: ms).take 1)).indexOf m)
      rw [List.take_succ_cons, List.take_zero]
      show _ = makeIntPartitionName E ((extendD (insertD ds m) []).indexOf m)
      rw [extendD, indexOf_insertD_self]
    | succ i =>
      have hi2 : i < ms.length := by simpa using hi
      have hstep := ih i (insertD ds m) hi2
      show (namesOf E (insertD ds m) ms).getD i "" = _
      rw [hstep, List.take_succ_cons]
      rfl

theorem get_mem_take (ms : List M) (i : Nat) (hi : i < ms.length) :
    ms.get ⟨i, hi⟩ ∈ ms.take (i + 1) := by
  induction ms generalizing i with
  | nil => simp at hi
  | cons m ms ih =>
    cases i with
    | zero => simp
    | succ i =>
      have hi2 : i < ms.length := by simpa using hi
      have h2 := List.mem_cons_of_mem m (ih i hi2)
      rw [List.take_succ_cons]
      exact h2

theorem extendD_take_mono (ds : List M) (ms : List M) {i j : Nat}
    (hij : i ≤ j) :
    ∃ rest, extendD ds (ms.take (j + 1))
      = extendD (extendD ds (ms.take (i + 1))) rest := by
  refine ⟨(ms.take (j + 1)).drop (i + 1), ?_⟩
  conv_lhs => rw [← List.take_append_drop (i + 1) (ms.take (j + 1))]
  rw [List.take_take, min_eq_left (by omega), extendD_append]

theorem namesOf_getD_eq_of_le (E : String) (ms : List M) {i j : Nat}
    (hi : i < ms.length) (hj : j < ms.length) (hij : i ≤ j)
    (hm : ms.get ⟨i, hi⟩ = ms.get ⟨j, hj⟩) :
    (namesOf E [] ms).getD i "" = (namesOf E [] ms).getD j "" := by
  rw [namesOf_getD E ms i [] hi, namesOf_getD E ms j [] hj]
  rcases extendD_take_mono [] ms hij with ⟨rest, hrest⟩
  have hmemA : ms.get ⟨i, hi⟩ ∈ extendD [] (ms.take (i + 1)) :=
    mem_extendD_of_mem_calls [] (get_mem_take ms i hi)
  rw [hrest, ← hm, indexOf_extendD rest hmemA]

theorem namesOf_getD_ne_of_le (E : String) (ms : List M) {i j : Nat}
    (hi : i < ms.length) (hj : j < ms.length) (hij : i ≤ j)
    (hm : ms.get ⟨i, hi⟩ ≠ ms.get ⟨j, hj⟩) :
    (namesOf E [] ms).getD i "" ≠ (namesOf E [] ms).getD j "" := by
  intro heq
  rw [namesOf_getD E ms i [] hi, namesOf_getD E ms j [] hj] at heq
  have hidx := makeIntPartitionName_inj heq
  rcases extendD_take_mono [] ms hij with ⟨rest, hrest⟩
  have hmemA : ms.get ⟨i, hi⟩ ∈ extendD [] (ms.take (i + 1)) :=
    mem_extendD_of_mem_calls [] (get_mem_take ms i hi)
  have hmiB : ms.get ⟨i, hi⟩ ∈ extendD [] (ms.take (j + 1)) := by
    rw [hrest]
    exact mem_extendD_of_mem rest hmemA
  have hmjB : ms.get ⟨j, hj⟩ ∈ extendD [] (ms.take (j + 1)) :=
    mem_extendD_of_mem_calls [] (get_mem_take ms j hj)
  have hsame : (extendD [] (ms.take (j + 1))).indexOf (ms.get ⟨i, hi⟩)
      = (extendD [] (ms.take (j + 1))).indexOf (ms.get ⟨j, hj⟩) := by
    rw [hrest, indexOf_extendD rest hmemA, ← hrest, hidx]
  exact hm ((List.indexOf_inj hmiB hmjB).mp hsame)

theorem canonParts_append_general (E : String) (xs ys : List M) (k : Nat) :
    canonParts E k (xs ++ ys)
      = canonParts E k xs ++ canonParts E (k + xs.length) ys := by
  induction xs generalizing k with
  | nil => simp [canonParts]
  | cons x xs ih =>
    simp only [List.cons_append, canonParts, List.length_cons, List.append_eq]
    rw [ih]
    have harith : k + 1 + xs.length = k + (xs.length + 1) := by omega
    rw [harith]

theorem resolveAll_from_empty (E L : String) (ms : List M) :
    resolveAll E L ms (emptyFile M)
      = (canon E (dedupFirst ms), namesOf E [] ms) := by
  rw [← canon_nil E, resolveAll_canon]
  rfl

/-- C1: over any sequence of resolve-or-create calls with one external
name, equal mappings return equal internal names, distinct mappings
return distinct internal names, the suffix of the i-th name is the rank
of its mapping among the distinct mappings seen so far (so suffixes are
minted 0, 1, 2, ... in order of first appearance), and every Partition
registered after any prefix of the calls survives, with its mapping
intact, in the final state. -/
theorem intPartitionName_resolve_or_create (E L : String) (ms : List M)
    (i j : Nat) (hi : i < ms.length) (hj : j < ms.length) :
    ((resolveAll E L ms (emptyFile M)).2.length = ms.length)
    ∧ (ms.get ⟨i, hi⟩ = ms.get ⟨j, hj⟩ →
        (resolveAll E L ms (emptyFile M)).2.getD i ""
          = (resolveAll E L ms (emptyFile M)).2.getD j "")
    ∧ (ms.get ⟨i, hi⟩ ≠ ms.get ⟨j, hj⟩ →
        (resolveAll E L ms (emptyFile M)).2.getD i ""
          ≠ (resolveAll E L ms (emptyFile M)).2.getD j "")
    ∧ ((resolveAll E L ms (emptyFile M)).2.getD i ""
        = makeIntPartitionName E
            ((dedupFirst (ms.take (i + 1))).indexOf (ms.get ⟨i, hi⟩)))
    ∧ (∀ k, ∀ p ∈ (resolveAll E L (ms.take k) (emptyFile M)).1.m_partitions,
        ∃ q ∈ (resolveAll E L ms (emptyFile M)).1.m_partitions,
          q.name = p.name ∧ q.mapping = p.mapping) := by
  rw [resolveAll_from_empty]
  refine ⟨namesOf_length E [] ms, ?_, ?_, ?_, ?_⟩
  · intro hm
    rcases Nat.le_total i j with hij | hij
    · exact namesOf_getD_eq_of_le E ms hi hj hij hm
    · exact (namesOf_getD_eq_of_le E ms hj hi hij hm.symm).symm
  · intro hm
    rcases Nat.le_total i j with hij | hij
    · exact namesOf_getD_ne_of_le E ms hi hj hij hm
    · exact fun h => namesOf_getD_ne_of_le E ms hj hi hij (fun h2 => hm h2.symm) h.symm
  · exact namesOf_getD E ms i [] hi
  · intro k p hp
    rw [resolveAll_from_empty] at hp
    have hsplit : dedupFirst ms = extendD (dedupFirst (ms.take k)) (ms.drop k) := by
      rw [dedupFirst, dedupFirst, ← extendD_append, List.take_append_drop]
    rcases extendD_eq_append (ms.drop k) (dedupFirst (ms.take k)) with ⟨ts, hts⟩
    refine ⟨p, ?_, rfl, rfl⟩
    show p ∈ canonParts E 0 (dedupFirst ms)
    rw [hsplit, hts, canonParts_append_general]
    exact List.mem_append_left _ hp

/-- Witness for C1 at a concrete call sequence: calls 0 and 2 use equal
mappings and receive the same internal name. -/
theorem intPartitionName_resolve_or_create_witness :
    (resolveAll "fire" "density" [0, 1, 0] (emptyFile Nat)).2.getD 0 ""
      = (resolveAll "fire" "density" [0, 1, 0] (emptyFile Nat)).2.getD 2 "" :=
  (intPartitionName_resolve_or_create "fire" "density" [0, 1, 0] 0 2
    (by decide) (by decide)).2.1 (by decide)

theorem findMatch_strip {E : String} {m : M} {ps : List (Partition M)}
    {nm : String} (h : findMatch E m ps = some nm) :
    removeUniqueId nm = E := by
  induction ps with
  | nil => simp [findMatch] at h
  | cons p ps ih =>
    rw [findMatch] at h
    by_cases hc : removeUniqueId p.name = E ∧ p.mapping = m
    · rw [if_pos hc] at h
      rw [← Option.some_inj.mp h]
      exact hc.1
    · rw [if_neg hc] at h
      exact ih h

/-- C2: stripping the unique suffix from any internal name returned by
resolve-or-create recovers the external name, from any registry state. -/
theorem removeUniqueId_intPartitionName (E L : String) (m : M)
    (f : Field3DFileBase M) (hE : E ≠ "") :
    removeUniqueId (intPartitionName E L m f).1 = E := by
  rw [intPartitionName]
  cases h : findMatch E m f.m_partitions with
  | some nm =>
    simpa using findMatch_strip h
  | none =>
    simpa using removeUniqueId_makeIntPartitionName E (f.m_partitionCount E)

/-- Witness for C2 at a concrete resolve-or-create call. -/
theorem removeUniqueId_intPartitionName_witness :
    removeUniqueId (intPartitionName "fire" "density" (0 : Nat)
      (emptyFile Nat)).1 = "fire" :=
  removeUniqueId_intPartitionName "fire" "density" 0 (emptyFile Nat)
    (by decide)

/-- A field value object as `writeLayer` sees it: `FieldRes` carries a
user-facing name, an attribute, and a mapping (`Field.h`, out of scope,
abstracted).  The C++ `Field<Data_T>::Ptr` is embedded as
`Option (Field M)`: `none` is the null pointer. -/
structure Field (M : Type) where
  name : String
  /-- The source member is spelled `attribute`, a reserved word here. -/
  attr : String
  mapping : M
deriving DecidableEq

/-- `Field3DOutputFile` (`Field3DFile.h` lines 552-693): the registry
base plus the archive handle, abstracted to whether it is open. -/
structure Field3DOutputFile (M : Type) where
  base : Field3DFileBase M
  m_archive : Bool

/-- The three-argument `Field3DOutputFile::writeLayer` exactly as its
inline body stands in the source (`Field3DFile.h` lines 699-723): a null
layer is rejected, an unopened archive is rejected, and otherwise the
function returns true; the partition/serialization logic is absent from
the body.  The third result component lists the backend paths written
(none on any path). -/
def writeLayer (f : Field3DOutputFile M) (partitionName layerName : String)
    (layer : Option (Field M)) :
    Bool × Field3DOutputFile M × List String :=
  match layer with
  | none => (false, f, [])
  | some _ =>
    if f.m_archive then (true, f, [])
    else (false, f, [])

/-- The single-argument `Field3DOutputFile::writeLayer` overload
(`Field3DFile.h` lines 601-603): it evaluates `layer->name` and
`layer->attribute` before any null check, so on a null pointer the call
has no defined result (embedded as `none`); on a non-null pointer it
forwards to the three-argument overload. -/
def writeLayerField (f : Field3DOutputFile M) (layer : Option (Field M)) :
    Option (Bool × Field3DOutputFile M × List String) :=
  match layer with
  | none => none
  | some fl => some (writeLayer f fl.name fl.attr (some fl))

/-- C5: `writeLayer` fails without raising when the archive is not open
or the field is null, and in the null case the registry is untouched
(partition list, hence partition count and every per-partition layer
count, identical) and no backend write happens. -/
theorem writeLayer_failure (f : Field3DOutputFile M)
    (partitionName layerName : String) (layer : Option (Field M))
    (h : layer = none ∨ f.m_archive = false) :
    (writeLayer f partitionName layerName layer).1 = false
    ∧ (layer = none →
        (writeLayer f partitionName layerName layer).2.1 = f
        ∧ (writeLayer f partitionName layerName layer).2.1.base.m_partitions.length
            = f.base.m_partitions.length
        ∧ (writeLayer f partitionName layerName layer).2.1.base.m_partitions.map
              (fun p => (p.m_scalarLayers.length, p.m_vectorLayers.length))
            = f.base.m_partitions.map
              (fun p => (p.m_scalarLayers.length, p.m_vectorLayers.length))
        ∧ (writeLayer f partitionName layerName layer).2.2 = []) := by
  cases layer with
  | none => exact ⟨rfl, fun _ => ⟨rfl, rfl, rfl, rfl⟩⟩
  | some fl =>
    rcases h with h | h
    · exact absurd h (by simp)
    · rw [writeLayer, h]
      exact ⟨rfl, fun hc => by simp at hc⟩

/-- Witness for C5: a null field on an open file fails cleanly. -/
theorem writeLayer_failure_witness :
    (writeLayer (⟨emptyFile Nat, true⟩ : Field3DOutputFile Nat)
      "fire" "density" none).1 = false :=
  (writeLayer_failure ⟨emptyFile Nat, true⟩ "fire" "density" none
    (Or.inl rfl)).1

/-- C4 (code bug): with an open archive and a non-null field, the source
body of `writeLayer` reports success yet registers no partition, appends
no layer record, and writes nothing through the backend — the
resolve-or-create and serialization steps are absent from the body. -/
theorem writeLayer_succeeds_without_registering :
    (writeLayer (⟨emptyFile Nat, true⟩ : Field3DOutputFile Nat)
        "fire" "density" (some ⟨"fire", "density", 7⟩)).1 = true
    ∧ (writeLayer (⟨emptyFile Nat, true⟩ : Field3DOutputFile Nat)
        "fire" "density" (some ⟨"fire", "density", 7⟩)).2.1.base.m_partitions = []
    ∧ (writeLayer (⟨emptyFile Nat, true⟩ : Field3DOutputFile Nat)
        "fire" "density" (some ⟨"fire", "density", 7⟩)).2.2 = [] :=
  ⟨rfl, rfl, rfl⟩

/-- C10: the single-argument `writeLayer` dereferences the field pointer
before any null check, so a null field has no defined result there,
while the three-argument overload rejects a null field cleanly with
`false` and an unchanged file. -/
theorem writeLayerField_null_unsafe (f : Field3DOutputFile M) :
    writeLayerField f none = none
    ∧ (∀ partitionName layerName : String,
        (writeLayer f partitionName layerName none).1 = false
        ∧ (writeLayer f partitionName layerName none).2.1 = f) :=
  ⟨rfl, fun _ _ => ⟨rfl, rfl⟩⟩

/-- `Field3DInputFile` (`Field3DFile.h` lines 395-525): the registry
base; the archive handle plays no role in the embedded read path. -/
structure Field3DInputFile (M : Type) where
  base : Field3DFileBase M

/-- Modelled from the spec: `Field3DFileBase::partition` has no body
under src; it returns the partition of the given internal name, or
nothing. -/
def partitionByName (f : Field3DFileBase M) (nm : String) :
    Option (Partition M) :=
  f.m_partitions.find? (fun p => decide (p.name = nm))

/-- Modelled from the spec: `Field3DFileBase::getIntPartitionNames` has
no body under src; it lists internal partition names in creation/load
order. -/
def getIntPartitionNames (f : Field3DFileBase M) : List String :=
  f.m_partitions.map Partition.name

/-- Modelled from the spec: `Field3DFileBase::getIntScalarLayerNames`
has no body under src; it lists the scalar layer names of the partition
with the given internal name, in insertion order. -/
def getIntScalarLayerNames (f : Field3DFileBase M)
    (intPartName : String) : List String :=
  match partitionByName f intPartName with
  | none => []
  | some p => p.getScalarLayerNames

/-- `Field3DInputFile::readLayer` exactly as its inline body stands in
the source (`Field3DFile.h` lines 799-805): it returns a null pointer
for every input. -/
def readLayer (f : Field3DInputFile M) (intPartName layerName : String) :
    Option (Field M) :=
  none

/-- The inner loop of `Field3DInputFile::readLayers` over the layer
names of one partition (`Field3DFile.h` lines 744-752 and 782-790):
every matching layer name is attempted through the materializer `rl`
(one backend access each, logged in the second component); a successful
materialization is appended, a failed one is skipped. -/
def scanLayerNames (rl : String → String → Option (Field M)) (p : String)
    (pred : String → Bool) : List String → List (Field M) × List (String × String)
  | [] => ([], [])
  | l :: ls =>
    let rest := scanLayerNames rl p pred ls
    if pred l then
      match rl p l with
      | some mf => (mf :: rest.1, (p, l) :: rest.2)
      | none => (rest.1, (p, l) :: rest.2)
    else rest

/-- The outer loop of `Field3DInputFile::readLayers` over the internal
partition names (`Field3DFile.h` lines 741-753 and 778-792). -/
def scanPartitions (f : Field3DInputFile M)
    (rl : String → String → Option (Field M)) (pfilter : String → Bool)
    (pred : String → Bool) :
    List String → List (Field M) × List (String × String)
  | [] => ([], [])
  | p :: ps =>
    let rest := scanPartitions f rl pfilter pred ps
    if pfilter p then
      let here := scanLayerNames rl p pred (getIntScalarLayerNames f.base p)
      (here.1 ++ rest.1, here.2 ++ rest.2)
    else rest

/-- The single-argument `Field3DInputFile::readLayers` (`Field3DFile.h`
lines 727-756), parameterized by the materializer `rl` it calls for each
matching layer: scan every internal partition, keep layers whose name
matches (or all layers when the query is empty). -/
def readLayersAllT (f : Field3DInputFile M)
    (rl : String → String → Option (Field M)) (name : String) :
    List (Field M) × List (String × String) :=
  scanPartitions f rl (fun _ => true)
    (fun l => decide (name.length = 0 ∨ l = name))
    (getIntPartitionNames f.base)

/-- The two-argument `Field3DInputFile::readLayers` (`Field3DFile.h`
lines 760-795), parameterized by the materializer `rl`: an empty
partition or layer name short-circuits to an empty result; otherwise
scan partitions whose suffix-stripped name equals `partitionName` for
layers named `layerName`. -/
def readLayersPartT (f : Field3DInputFile M)
    (rl : String → String → Option (Field M))
    (partitionName layerName : String) :
    List (Field M) × List (String × String) :=
  if layerName.length = 0 ∨ partitionName.length = 0 then ([], [])
  else
    scanPartitions f rl (fun p => decide (removeUniqueId p = partitionName))
      (fun l => decide (l = layerName)) (getIntPartitionNames f.base)

/-- The single-argument `readLayers` with the source's own (stubbed)
`readLayer` as materializer. -/
def readLayers (f : Field3DInputFile M) (name : String) : List (Field M) :=
  (readLayersAllT f (readLayer f) name).1

/-- The two-argument `readLayers` with the source's own (stubbed)
`readLayer` as materializer. -/
def readLayersPart (f : Field3DInputFile M)
    (partitionName layerName : String) : List (Field M) :=
  (readLayersPartT f (readLayer f) partitionName layerName).1

theorem scanLayerNames_snd (rl : String → String → Option (Field M))
    (p : String) (pred : String → Bool) (ls : List String) :
    (scanLayerNames rl p pred ls).2 = (ls.filter pred).map (fun l => (p, l)) := by
  induction ls with
  | nil => rfl
  | cons l ls ih =>
    rw [scanLayerNames]
    by_cases hl : pred l
    · simp only [hl, if_true, List.filter_cons_of_pos hl, List.map_cons]
      cases rl p l <;> simpa using ih
    · simp only [hl, if_false, Bool.false_eq_true,
        List.filter_cons_of_neg (by simpa using hl)]
      exact ih

theorem scanLayerNames_fst (rl : String → String → Option (Field M))
    (p : String) (pred : String → Bool) (ls : List String) :
    (scanLayerNames rl p pred ls).1
      = ((scanLayerNames rl p pred ls).2).filterMap
          (fun pl => rl pl.1 pl.2) := by
  induction ls with
  | nil => rfl
  | cons l ls ih =>
    rw [scanLayerNames]
    by_cases hl : pred l
    · simp only [hl, if_true]
      cases hr : rl p l <;> simp [List.filterMap_cons, hr, ih]
    · simp only [hl, if_false, Bool.false_eq_true]
      exact ih

theorem scanPartitions_snd (f : Field3DInputFile M)
    (rl : String → String → Option (Field M)) (pfilter pred : String → Bool)
    (ps : List String) :
    (scanPartitions f rl pfilter pred ps).2
      = (ps.filter pfilter).flatMap
          (fun p => ((getIntScalarLayerNames f.base p).filter pred).map
            (fun l => (p, l))) := by
  induction ps with
  | nil => rfl
  | cons p ps ih =>
    rw [scanPartitions]
    by_cases hp : pfilter p
    · simp only [hp, if_true, List.filter_cons_of_pos hp, List.flatMap_cons]
      rw [scanLayerNames_snd, ih]
    · simp only [hp, if_false, Bool.false_eq_true,
        List.filter_cons_of_neg (by simpa using hp)]
      exact ih

theorem scanPartitions_fst (f : Field3DInputFile M)
    (rl : String → String → Option (Field M)) (pfilter pred : String → Bool)
    (ps : List String) :
    (scanPartitions f rl pfilter pred ps).1
      = ((scanPartitions f rl pfilter pred ps).2).filterMap
          (fun pl => rl pl.1 pl.2) := by
  induction ps with
  | nil => rfl
  | cons p ps ih =>
    rw [scanPartitions]
    by_cases hp : pfilter p
    · simp only [hp, if_true, List.filterMap_append]
      rw [scanLayerNames_fst, ih]
    · simp only [hp, if_false, Bool.false_eq_true]
      exact ih

theorem string_length_zero_iff (s : String) : s.length = 0 ↔ s = "" := by
  constructor
  · intro h
    have hd : s.data = [] := List.length_eq_zero.mp h
    rw [← string_mk_data s, hd]
  · intro h
    subst h
    rfl

/-- C8: during a multi-layer read scan, every matching layer is
attempted regardless of earlier failures (the attempted-layer log does
not depend on the materializer), and the result is exactly the
subsequence of attempted matching layers that materialized
successfully. -/
theorem readLayers_skip_on_miss (f : Field3DInputFile M)
    (rl : String → String → Option (Field M)) (name : String) :
    (readLayersAllT f rl name).2 = (readLayersAllT f (fun _ _ => none) name).2
    ∧ (readLayersAllT f rl name).1
        = ((readLayersAllT f rl name).2).filterMap (fun pl => rl pl.1 pl.2) := by
  constructor
  · rw [readLayersAllT, readLayersAllT, scanPartitions_snd, scanPartitions_snd]
  · exact scanPartitions_fst f rl _ _ _

/-- C6: the two-argument `readLayers` returns exactly the successful
materializations of the layers named `layerName` inside internal
partitions whose suffix-stripped name equals `partitionName`, in
partition creation/load order. -/
theorem readLayersPart_matches (f : Field3DInputFile M)
    (rl : String → String → Option (Field M)) (P L : String)
    (hP : P ≠ "") (hL : L ≠ "") :
    (readLayersPartT f rl P L).1
      = ((getIntPartitionNames f.base).filter
            (fun p => decide (removeUniqueId p = P))).flatMap
          (fun p => ((getIntScalarLayerNames f.base p).filter
              (fun l => decide (l = L))).filterMap (fun l => rl p l)) := by
  rw [readLayersPartT, if_neg ?_]
  · rw [scanPartitions_fst, scanPartitions_snd, List.filterMap_flatMap]
    refine List.flatMap_congr ?_
    intro p hp
    rw [List.filterMap_map]
    rfl
  · rintro (h | h)
    · exact hL ((string_length_zero_iff L).mp h)
    · exact hP ((string_length_zero_iff P).mp h)

/-- C7: an empty partition or layer name short-circuits the two-argument
`readLayers` to an empty result with zero backend accesses. -/
theorem readLayersPart_empty_names (f : Field3DInputFile M)
    (rl : String → String → Option (Field M)) (P L : String)
    (h : P = "" ∨ L = "") :
    readLayersPartT f rl P L = ([], []) := by
  rw [readLayersPartT, if_pos ?_]
  rcases h with h | h
  · exact Or.inr (by simp [h])
  · exact Or.inl (by simp [h])

/-- A concrete loaded file: one partition `fire.0` carrying one scalar
layer `density`. -/
def inputFileEx : Field3DInputFile Nat :=
  ⟨⟨[{ name := "fire.0", mapping := 7,
       m_scalarLayers := [⟨"density", "fire.0"⟩], m_vectorLayers := [] }],
    fun _ => 0⟩⟩

/-- A concrete materializer that succeeds on every layer. -/
def rlEx : String → String → Option (Field Nat) :=
  fun p l => some ⟨l, p, 3⟩

/-- Witness for C6 at a concrete file, materializer and query. -/
theorem readLayersPart_matches_witness :
    (readLayersPartT inputFileEx rlEx "fire" "density").1
      = ((getIntPartitionNames inputFileEx.base).filter
            (fun p => decide (removeUniqueId p = "fire"))).flatMap
          (fun p => ((getIntScalarLayerNames inputFileEx.base p).filter
              (fun l => decide (l = "density"))).filterMap
            (fun l => rlEx p l)) :=
  readLayersPart_matches inputFileEx rlEx "fire" "density"
    (by decide) (by decide)

/-- Witness for C7: an empty partition name yields the empty result and
an empty backend-access log. -/
theorem readLayersPart_empty_names_witness :
    readLayersPartT inputFileEx rlEx "" "density" = ([], []) :=
  readLayersPart_empty_names inputFileEx rlEx "" "density" (Or.inl rfl)

/-- C3 (code bug): reading back a file through the source's `readLayer`
body yields nothing — `readLayer` returns a null pointer for every
layer, so both `readLayers` overloads return the empty collection even
for a file holding a `density` layer, and no write/read round trip can
return the written fields. -/
theorem readLayers_roundtrip_lost :
    readLayers inputFileEx "density" = []
    ∧ readLayersPart inputFileEx "fire" "density" = [] :=
  ⟨rfl, rfl⟩

theorem find_eq_head_filter {α : Type} (q : α → Bool) (ls : List α) :
    ls.find? q = (ls.filter q).head? := by
  induction ls with
  | nil => rfl
  | cons x xs ih =>
    by_cases hx : q x
    · rw [List.find?_cons_of_pos _ hx, List.filter_cons_of_pos hx]
      rfl
    · rw [List.find?_cons_of_neg _ (by simpa using hx),
        List.filter_cons_of_neg (by simpa using hx)]
      exact ih

theorem find_append_some {α : Type} (q : α → Bool) {xs : List α}
    (ys : List α) {x : α} (h : xs.find? q = some x) :
    (xs ++ ys).find? q = some x := by
  induction xs with
  | nil => simp [List.find?] at h
  | cons w xs ih =>
    by_cases hw : q w
    · rw [List.find?_cons_of_pos _ hw] at h
      rw [List.cons_append, List.find?_cons_of_pos _ hw, h]
    · rw [List.find?_cons_of_neg _ (by simpa using hw)] at h
      rw [List.cons_append, List.find?_cons_of_neg _ (by simpa using hw)]
      exact ih h

/-- C9: layer addition is append-only (insertion order kept, nothing
overwritten, duplicates of a name retained), lookup returns the first
matching Layer Record in insertion order, an existing layer keeps
shadowing after a duplicate is appended, and full enumeration counts
every duplicate. -/
theorem partition_layer_semantics (p : Partition M) (l : Layer)
    (nm : String) :
    ((p.addScalarLayer l).m_scalarLayers = p.m_scalarLayers ++ [l])
    ∧ ((p.addVectorLayer l).m_vectorLayers = p.m_vectorLayers ++ [l])
    ∧ (p.scalarLayer nm
        = (p.m_scalarLayers.filter (fun x => decide (x.name = nm))).head?)
    ∧ (p.vectorLayer nm
        = (p.m_vectorLayers.filter (fun x => decide (x.name = nm))).head?)
    ∧ (∀ x, p.scalarLayer l.name = some x →
        (p.addScalarLayer l).scalarLayer l.name = some x)
    ∧ (∀ x, p.vectorLayer l.name = some x →
        (p.addVectorLayer l).vectorLayer l.name = some x)
    ∧ (((p.addScalarLayer l).m_scalarLayers.filter
          (fun x => decide (x.name = nm))).length
        = (p.m_scalarLayers.filter (fun x => decide (x.name = nm))).length
          + (if l.name = nm then 1 else 0))
    ∧ (((p.addVectorLayer l).m_vectorLayers.filter
          (fun x => decide (x.name = nm))).length
        = (p.m_vectorLayers.filter (fun x => decide (x.name = nm))).length
          + (if l.name = nm then 1 else 0)) := by
  refine ⟨rfl, rfl, find_eq_head_filter _ _, find_eq_head_filter _ _,
    ?_, ?_, ?_, ?_⟩
  · intro x hx
    exact find_append_some _ [l] hx
  · intro x hx
    exact find_append_some _ [l] hx
  · rw [Partition.addScalarLayer]
    simp only [List.filter_append, List.length_append]
    by_cases hn : l.name = nm <;> simp [hn]
  · rw [Partition.addVectorLayer]
    simp only [List.filter_append, List.length_append]
    by_cases hn : l.name = nm <;> simp [hn]

/-- Witness for C9: after appending a duplicate `velocity` record, the
first record still shadows the lookup. -/
theorem partition_layer_semantics_witness :
    (Partition.addVectorLayer
        { name := "fire.0", mapping := (7 : Nat),
          m_scalarLayers := [],
          m_vectorLayers := [⟨"velocity", "fire.0"⟩] }
        ⟨"velocity", "fire.1"⟩).vectorLayer "velocity"
      = some ⟨"velocity", "fire.0"⟩ :=
  (partition_layer_semantics
    { name := "fire.0", mapping := (7 : Nat),
      m_scalarLayers := [],
      m_vectorLayers := [⟨"velocity", "fire.0"⟩] }
    ⟨"velocity", "fire.1"⟩ "velocity").2.2.2.2.2.1
    ⟨"velocity", "fire.0"⟩ rfl

end Field3D
